/-
Verification of the data-structures repository: the binary search tree
(src/binary_tree/binarySearchTree.py) and the chaining hash table
(src/hashtable/chaining_method.py), shallowly embedded in Lean 4.

The Python BST is a node-based structure whose child links may be `None`;
we embed `Optional[BinarySearchTreeNode]` as an inductive `Tree` with a
`leaf` constructor for `None`.  Node values are Python integers, embedded
as `Int`.  Each method of `BinarySearchTreeNode` becomes a function on
`Tree`; the `leaf` equations correspond exactly to the `if self.left:`/
`if self.right:` absent-child checks performed by the caller in the
Python source.
-/
import Mathlib

namespace DS

inductive Tree where
  | leaf : Tree
  | node : Tree → Int → Tree → Tree
deriving DecidableEq, Repr

namespace Tree

/-- `BinarySearchTreeNode.add_child` (binarySearchTree.py lines 70-84):
duplicates are rejected silently; otherwise recurse left when
`data < self.data`, right otherwise, creating a fresh node at an empty
slot.  The `leaf` equation is the `self.left = BinarySearchTreeNode(data)`
(resp. right) branch of the parent call. -/
def add_child : Tree → Int → Tree
  | leaf, d => node leaf d leaf
  | node l v r, d =>
    if v = d then node l v r
    else if d < v then node (add_child l d) v r
    else node l v (add_child r d)

/-- `BinarySearchTreeNode.search` (lines 86-95): `search` returns `True`
on an exact match and `False` when the needed child link is absent. -/
def search : Tree → Int → Bool
  | leaf, _ => false
  | node l v r, x =>
    if v = x then true
    else if x < v then search l x
    else search r x

/-- `BinarySearchTreeNode.find_min` (lines 97-99): leftmost value.  The
Python method is only ever invoked on an existing node; the `leaf`
equation is an arbitrary total completion (never reached from `remove`). -/
def find_min : Tree → Int
  | leaf => 0
  | node leaf v _ => v
  | node (node a b c) _ _ => find_min (node a b c)

/-- `BinarySearchTreeNode.remove` (lines 109-133).  The Python method
returns the new subtree root (`None` becomes `leaf`): a leaf match is
dropped, a one-child match is replaced by its child, and a two-child
match has its value overwritten with `self.right.find_min()` after which
that minimum is removed from the right subtree. -/
def remove : Tree → Int → Tree
  | leaf, _ => leaf
  | node l v r, x =>
    if x < v then node (remove l x) v r
    else if v < x then node l v (remove r x)
    else
      match l, r with
      | leaf, leaf => leaf
      | leaf, node rl rv rr => node rl rv rr
      | node ll lv lr, leaf => node ll lv lr
      | node ll lv lr, node rl rv rr =>
        node (node ll lv lr) (find_min (node rl rv rr))
          (remove (node rl rv rr) (find_min (node rl rv rr)))

/-- `BinarySearchTreeNode.in_order_traversal` (lines 135-143):
left, root, right. -/
def in_order_traversal : Tree → List Int
  | leaf => []
  | node l v r => in_order_traversal l ++ v :: in_order_traversal r

/-- `BinarySearchTreeNode.calculate_sum` (lines 105-107):
`sum(self.in_order_traversal())`. -/
def calculate_sum (t : Tree) : Int :=
  (in_order_traversal t).sum

end Tree

/-- A BST built as in the repository's driver: a root node
`BinarySearchTreeNode(v0)` followed by `add_child` for each element of
`vs` in order. -/
def buildBST (v0 : Int) (vs : List Int) : Tree :=
  vs.foldl Tree.add_child (Tree.node Tree.leaf v0 Tree.leaf)

/-- The BST ordering invariant of the spec's data model: every value of
the left subtree is strictly below the node value and every value of the
right subtree strictly above, recursively. -/
def IsBST : Tree → Prop
  | Tree.leaf => True
  | Tree.node l v r =>
    (∀ x ∈ l.in_order_traversal, x < v) ∧
    (∀ x ∈ r.in_order_traversal, v < x) ∧ IsBST l ∧ IsBST r

/-
The chaining hash table (src/hashtable/chaining_method.py).  Keys are
Python strings, embedded as `String`; stored values are embedded as
`Int`, which also covers the `-1` not-found sentinel returned by
`__getitem__`.  The bucket array `self.data` is a list of buckets, each
bucket an ordered list of key-value pairs.  Python's in-place bucket
mutation becomes `List.set` at the hashed index.
-/

structure HashTable where
  size : Nat
  data : List (List (String × Int))
deriving DecidableEq, Repr

namespace HashTable

/-- `HashTable.__init__` (chaining_method.py lines 37-43): `size`
independent empty buckets. -/
def mk_table (size : Nat) : HashTable :=
  ⟨size, List.replicate size []⟩

/-- `HashTable.get_hash` (lines 45-54): sum of the character codes of the
key, modulo the table size. -/
def get_hash (t : HashTable) (key : String) : Nat :=
  (key.data.foldl (fun acc c => acc + c.toNat) 0) % t.size

/-- Bucket-level loop of `HashTable.__setitem__` (lines 65-69): overwrite
the value of the first pair with a matching key in place, else append the
new pair at the end. -/
def setBucket : List (String × Int) → String → Int → List (String × Int)
  | [], key, value => [(key, value)]
  | (k, v) :: rest, key, value =>
    if k = key then (k, value) :: rest else (k, v) :: setBucket rest key value

/-- `HashTable.__setitem__` (lines 56-69). -/
def __setitem__ (t : HashTable) (key : String) (value : Int) : HashTable :=
  ⟨t.size, t.data.set (t.get_hash key)
    (setBucket (t.data.getD (t.get_hash key) []) key value)⟩

/-- Bucket-level loop of `HashTable.__getitem__` (lines 80-83): value of
the first pair with a matching key, `-1` when none matches. -/
def getBucket : List (String × Int) → String → Int
  | [], _ => -1
  | (k, v) :: rest, key => if k = key then v else getBucket rest key

/-- `HashTable.__getitem__` (lines 71-83). -/
def __getitem__ (t : HashTable) (key : String) : Int :=
  getBucket (t.data.getD (t.get_hash key) []) key

/-- Bucket-level loop of `HashTable.__delitem__` (lines 93-96): drop the
first pair with a matching key, keep everything else. -/
def delBucket : List (String × Int) → String → List (String × Int)
  | [], _ => []
  | (k, v) :: rest, key =>
    if k = key then rest else (k, v) :: delBucket rest key

/-- `HashTable.__delitem__` (lines 85-96). -/
def __delitem__ (t : HashTable) (key : String) : HashTable :=
  ⟨t.size, t.data.set (t.get_hash key)
    (delBucket (t.data.getD (t.get_hash key) []) key)⟩

end HashTable

/-- A set or delete operation, as issued through `ht[k] = v` and
`del ht[k]`. -/
inductive Op where
  | set (key : String) (value : Int) : Op
  | del (key : String) : Op

def applyOp (t : HashTable) : Op → HashTable
  | Op.set k v => t.__setitem__ k v
  | Op.del k => t.__delitem__ k

/-- Replay a sequence of operations on a table. -/
def run (t : HashTable) (ops : List Op) : HashTable :=
  ops.foldl applyOp t

/-- Structural well-formedness of the Python object: `self.data` holds
exactly `self.size` buckets and the size is positive (with size 0 the
Python `%` in `get_hash` would raise). -/
def Valid (t : HashTable) : Prop :=
  t.data.length = t.size ∧ 0 < t.size

/-- The reachable-state invariant: structurally valid, every bucket's
keys are distinct, and every pair sits in the bucket its key hashes to. -/
def Wf (t : HashTable) : Prop :=
  Valid t ∧ ∀ i, i < t.data.length →
    ((t.data.getD i []).map Prod.fst).Nodup ∧
    ∀ x ∈ (t.data.getD i []).map Prod.fst, t.get_hash x = i

instance (t : HashTable) : Decidable (Valid t) := by
  unfold Valid
  infer_instance

instance (t : HashTable) : Decidable (Wf t) := by
  unfold Wf Valid
  infer_instance

/-- The number of pairs stored with key `k`, summed over every bucket. -/
def keyCount (t : HashTable) (k : String) : Nat :=
  (t.data.map fun b => (b.filter fun p => p.1 == k).length).sum

/-- The total number of key-value pairs stored in the table. -/
def pairCount (t : HashTable) : Nat :=
  (t.data.map List.length).sum

/-- The per-bucket key sequences of the table. -/
def bucketKeys (t : HashTable) : List (List String) :=
  t.data.map fun b => b.map Prod.fst

/-- All keys present in the table, in bucket order. -/
def tableKeys (t : HashTable) : List String :=
  (t.data.map fun b => b.map Prod.fst).flatten

namespace Tree

theorem inorder_eq_nil_iff {t : Tree} : t.in_order_traversal = [] ↔ t = leaf := by
  cases t <;> simp [in_order_traversal]

theorem inorder_ne_nil {l r : Tree} {v : Int} :
    (node l v r).in_order_traversal ≠ [] := by
  simp [in_order_traversal]

theorem mem_inorder_add_child {t : Tree} {d x : Int}
    (h : x ∈ (t.add_child d).in_order_traversal) :
    x = d ∨ x ∈ t.in_order_traversal := by
  induction t with
  | leaf =>
    simp [add_child, in_order_traversal] at h
    exact Or.inl h
  | node l v r ihl ihr =>
    by_cases h1 : v = d
    · simp only [add_child, if_pos h1] at h
      exact Or.inr h
    · by_cases h2 : d < v
      · simp only [add_child, if_neg h1, if_pos h2, in_order_traversal,
          List.mem_append, List.mem_cons] at h ⊢
        rcases h with h | h | h
        · rcases ihl h with h' | h'
          · exact Or.inl h'
          · exact Or.inr (Or.inl h')
        · exact Or.inr (Or.inr (Or.inl h))
        · exact Or.inr (Or.inr (Or.inr h))
      · simp only [add_child, if_neg h1, if_neg h2, in_order_traversal,
          List.mem_append, List.mem_cons] at h ⊢
        rcases h with h | h | h
        · exact Or.inr (Or.inl h)
        · exact Or.inr (Or.inr (Or.inl h))
        · rcases ihr h with h' | h'
          · exact Or.inl h'
          · exact Or.inr (Or.inr (Or.inr h'))

theorem isBST_add_child {t : Tree} (h : IsBST t) (d : Int) :
    IsBST (t.add_child d) := by
  induction t with
  | leaf => simp [add_child, IsBST, in_order_traversal]
  | node l v r ihl ihr =>
    obtain ⟨hl, hr, hbl, hbr⟩ := h
    by_cases h1 : v = d
    · simp only [add_child, if_pos h1]
      exact ⟨hl, hr, hbl, hbr⟩
    · by_cases h2 : d < v
      · have hmem : ∀ x ∈ (l.add_child d).in_order_traversal, x < v := by
          intro x hx
          rcases mem_inorder_add_child hx with rfl | hx'
          · exact h2
          · exact hl x hx'
        simp only [add_child, if_neg h1, if_pos h2]
        exact ⟨hmem, hr, ihl hbl, hbr⟩
      · have h3 : v < d := lt_of_le_of_ne (not_lt.mp h2) h1
        have hmem : ∀ x ∈ (r.add_child d).in_order_traversal, v < x := by
          intro x hx
          rcases mem_inorder_add_child hx with rfl | hx'
          · exact h3
          · exact hr x hx'
        simp only [add_child, if_neg h1, if_neg h2]
        exact ⟨hl, hmem, hbl, ihr hbr⟩

theorem isBST_foldl_add_child {t : Tree} (h : IsBST t) (vs : List Int) :
    IsBST (vs.foldl add_child t) := by
  induction vs generalizing t with
  | nil => exact h
  | cons u us ih => exact ih (isBST_add_child h u)

theorem sorted_inorder_of_isBST {t : Tree} (h : IsBST t) :
    t.in_order_traversal.Sorted (· < ·) := by
  induction t with
  | leaf => simp [in_order_traversal]
  | node l v r ihl ihr =>
    obtain ⟨hl, hr, hbl, hbr⟩ := h
    simp only [in_order_traversal]
    refine List.pairwise_append.mpr
      ⟨ihl hbl, List.pairwise_cons.mpr ⟨hr, ihr hbr⟩, ?_⟩
    intro x hx y hy
    rcases List.mem_cons.mp hy with rfl | hy'
    · exact hl x hx
    · exact lt_trans (hl x hx) (hr y hy')

theorem nodup_inorder_of_isBST {t : Tree} (h : IsBST t) :
    t.in_order_traversal.Nodup :=
  (sorted_inorder_of_isBST h).nodup

theorem inorder_cons_find_min : ∀ {t : Tree}, t ≠ leaf →
    ∃ tl, t.in_order_traversal = t.find_min :: tl := by
  intro t
  induction t with
  | leaf => intro h; exact absurd rfl h
  | node l v r ihl ihr =>
    intro _
    cases l with
    | leaf => exact ⟨r.in_order_traversal, by simp [in_order_traversal, find_min]⟩
    | node a b c =>
      obtain ⟨tl, htl⟩ := ihl (by simp)
      refine ⟨tl ++ v :: r.in_order_traversal, ?_⟩
      have hunf : (node (node a b c) v r).in_order_traversal
          = (node a b c).in_order_traversal ++ v :: r.in_order_traversal := rfl
      rw [hunf, htl]
      simp [find_min]

theorem find_min_mem {t : Tree} (h : t ≠ leaf) :
    t.find_min ∈ t.in_order_traversal := by
  obtain ⟨tl, htl⟩ := inorder_cons_find_min h
  rw [htl]
  exact List.mem_cons_self _ _

theorem remove_of_lt {l r : Tree} {v x : Int} (h : x < v) :
    (node l v r).remove x = node (l.remove x) v r := by
  cases l <;> cases r <;> simp [remove, h]

theorem remove_of_gt {l r : Tree} {v x : Int} (h : v < x) :
    (node l v r).remove x = node l v (r.remove x) := by
  have h' : ¬ x < v := not_lt.mpr h.le
  cases l <;> cases r <;> simp [remove, h, h']

theorem remove_self_both_leaf {v : Int} : (node leaf v leaf).remove v = leaf := by
  simp [remove]

theorem remove_self_left_leaf {r : Tree} {v : Int} (hr : r ≠ leaf) :
    (node leaf v r).remove v = r := by
  cases r with
  | leaf => exact absurd rfl hr
  | node rl rv rr => simp [remove]

theorem remove_self_right_leaf {l : Tree} {v : Int} (hl : l ≠ leaf) :
    (node l v leaf).remove v = l := by
  cases l with
  | leaf => exact absurd rfl hl
  | node ll lv lr => simp [remove]

theorem remove_self_two_children {l r : Tree} {v : Int}
    (hl : l ≠ leaf) (hr : r ≠ leaf) :
    (node l v r).remove v = node l r.find_min (r.remove r.find_min) := by
  cases l with
  | leaf => exact absurd rfl hl
  | node ll lv lr =>
    cases r with
    | leaf => exact absurd rfl hr
    | node rl rv rr => simp [remove]

theorem inorder_remove : ∀ (t : Tree), IsBST t → ∀ (x : Int),
    (t.remove x).in_order_traversal = t.in_order_traversal.erase x := by
  intro t
  induction t with
  | leaf => intro _ x; simp [remove, in_order_traversal]
  | node l v r ihl ihr =>
    intro h x
    obtain ⟨hl, hr, hbl, hbr⟩ := h
    by_cases h1 : x < v
    · have hxv : ¬ v = x := by omega
      have hxr : x ∉ r.in_order_traversal := fun hm => absurd (hr x hm) (by omega)
      rw [remove_of_lt h1]
      simp only [in_order_traversal]
      rw [ihl hbl x]
      by_cases hm : x ∈ l.in_order_traversal
      · rw [List.erase_append_left _ hm]
      · rw [List.erase_of_not_mem hm, List.erase_append_right _ hm,
          List.erase_cons_tail (by simp [hxv]), List.erase_of_not_mem hxr]
    · by_cases h2 : v < x
      · have hxv : ¬ v = x := by omega
        have hxl : x ∉ l.in_order_traversal := fun hm => absurd (hl x hm) (by omega)
        rw [remove_of_gt h2]
        simp only [in_order_traversal]
        rw [ihr hbr x, List.erase_append_right _ hxl,
          List.erase_cons_tail (by simp [hxv])]
      · have hxv : x = v := by omega
        subst hxv
        have hxl : x ∉ l.in_order_traversal := fun hm => lt_irrefl x (hl x hm)
        by_cases hlleaf : l = leaf
        · subst hlleaf
          by_cases hrleaf : r = leaf
          · subst hrleaf
            rw [remove_self_both_leaf]
            simp [in_order_traversal]
          · rw [remove_self_left_leaf hrleaf]
            simp only [in_order_traversal, List.nil_append, List.erase_cons_head]
        · by_cases hrleaf : r = leaf
          · subst hrleaf
            rw [remove_self_right_leaf hlleaf]
            simp only [in_order_traversal]
            rw [List.erase_append_right _ hxl, List.erase_cons_head]
            simp
          · rw [remove_self_two_children hlleaf hrleaf]
            obtain ⟨tl, htl⟩ := inorder_cons_find_min hrleaf
            simp only [in_order_traversal]
            rw [ihr hbr r.find_min, List.erase_append_right _ hxl,
              List.erase_cons_head, htl, List.erase_cons_head]

theorem isBST_remove : ∀ (t : Tree), IsBST t → ∀ (x : Int), IsBST (t.remove x) := by
  intro t
  induction t with
  | leaf => intro _ x; simp [remove, IsBST]
  | node l v r ihl ihr =>
    intro h x
    obtain ⟨hl, hr, hbl, hbr⟩ := h
    by_cases h1 : x < v
    · rw [remove_of_lt h1]
      refine ⟨?_, hr, ihl hbl x, hbr⟩
      intro y hy
      rw [inorder_remove l hbl x] at hy
      exact hl y (List.mem_of_mem_erase hy)
    · by_cases h2 : v < x
      · rw [remove_of_gt h2]
        refine ⟨hl, ?_, hbl, ihr hbr x⟩
        intro y hy
        rw [inorder_remove r hbr x] at hy
        exact hr y (List.mem_of_mem_erase hy)
      · have hxv : x = v := by omega
        subst hxv
        by_cases hlleaf : l = leaf
        · subst hlleaf
          by_cases hrleaf : r = leaf
          · subst hrleaf
            rw [remove_self_both_leaf]
            trivial
          · rw [remove_self_left_leaf hrleaf]
            exact hbr
        · by_cases hrleaf : r = leaf
          · subst hrleaf
            rw [remove_self_right_leaf hlleaf]
            exact hbl
          · rw [remove_self_two_children hlleaf hrleaf]
            obtain ⟨tl, htl⟩ := inorder_cons_find_min hrleaf
            have hmmem : r.find_min ∈ r.in_order_traversal := by
              rw [htl]
              exact List.mem_cons_self _ _
            have hvm : x < r.find_min := hr _ hmmem
            have hsorted := sorted_inorder_of_isBST hbr
            rw [htl] at hsorted
            have htail : ∀ y ∈ tl, r.find_min < y :=
              (List.pairwise_cons.mp hsorted).1
            refine ⟨?_, ?_, hbl, ihr hbr r.find_min⟩
            · intro y hy
              exact lt_trans (hl y hy) hvm
            · intro y hy
              rw [inorder_remove r hbr r.find_min, htl,
                List.erase_cons_head] at hy
              exact htail y hy

theorem not_mem_inorder_remove {t : Tree} (h : IsBST t) (x : Int) :
    x ∉ (t.remove x).in_order_traversal := by
  rw [inorder_remove t h x]
  exact (nodup_inorder_of_isBST h).not_mem_erase

theorem remove_eq_self_of_not_mem : ∀ (t : Tree) (x : Int),
    x ∉ t.in_order_traversal → t.remove x = t := by
  intro t
  induction t with
  | leaf => intro x _; rfl
  | node l v r ihl ihr =>
    intro x hx
    simp only [in_order_traversal, List.mem_append, List.mem_cons, not_or] at hx
    obtain ⟨hxl, hxv, hxr⟩ := hx
    by_cases h1 : x < v
    · rw [remove_of_lt h1, ihl x hxl]
    · have h2 : v < x := lt_of_le_of_ne (not_lt.mp h1) fun h => hxv h.symm
      rw [remove_of_gt h2, ihr x hxr]

theorem search_eq_false_of_not_mem : ∀ (t : Tree) (x : Int),
    x ∉ t.in_order_traversal → t.search x = false := by
  intro t
  induction t with
  | leaf => intro x _; rfl
  | node l v r ihl ihr =>
    intro x hx
    simp only [in_order_traversal, List.mem_append, List.mem_cons, not_or] at hx
    obtain ⟨hxl, hxv, hxr⟩ := hx
    have hvx : ¬ v = x := fun h => hxv h.symm
    by_cases h1 : x < v
    · simp only [search, if_neg hvx, if_pos h1]
      exact ihl x hxl
    · simp only [search, if_neg hvx, if_neg h1]
      exact ihr x hxr

theorem isBST_foldl_remove : ∀ (rs : List Int) (t : Tree), IsBST t →
    IsBST (rs.foldl remove t) := by
  intro rs
  induction rs with
  | nil => intro t h; exact h
  | cons u us ih => intro t h; exact ih _ (isBST_remove t h u)

theorem foldl_remove_eq_leaf : ∀ (us : List Int) (t : Tree), IsBST t →
    (∀ y ∈ t.in_order_traversal, y ∈ us) → us.foldl remove t = leaf := by
  intro us
  induction us with
  | nil =>
    intro t _ hcov
    simp only [List.foldl_nil]
    exact inorder_eq_nil_iff.mp
      (List.eq_nil_iff_forall_not_mem.mpr
        fun y hy => absurd (hcov y hy) (List.not_mem_nil y))
  | cons u us ih =>
    intro t hb hcov
    simp only [List.foldl_cons]
    refine ih (t.remove u) (isBST_remove t hb u) ?_
    intro y hy
    have hyt : y ∈ t.in_order_traversal := by
      rw [inorder_remove t hb u] at hy
      exact List.mem_of_mem_erase hy
    have hyu : y ≠ u := by
      rintro rfl
      exact not_mem_inorder_remove hb y hy
    rcases List.mem_cons.mp (hcov y hyt) with h | h
    · exact absurd h hyu
    · exact h

theorem mem_inorder_foldl_add_child : ∀ (vs : List Int) (t : Tree) (y : Int),
    y ∈ (vs.foldl add_child t).in_order_traversal →
    y ∈ t.in_order_traversal ∨ y ∈ vs := by
  intro vs
  induction vs with
  | nil => intro t y h; exact Or.inl h
  | cons u us ih =>
    intro t y h
    rcases ih _ y h with h' | h'
    · rcases mem_inorder_add_child h' with h'' | h''
      · exact Or.inr (by rw [h'']; exact List.mem_cons_self u us)
      · exact Or.inl h''
    · exact Or.inr (List.mem_cons_of_mem u h')

end Tree

theorem isBST_buildBST (v0 : Int) (vs : List Int) : IsBST (buildBST v0 vs) :=
  Tree.isBST_foldl_add_child (by simp [IsBST, Tree.in_order_traversal]) vs

theorem getD_set_self {α : Type} : ∀ (l : List α) (i : Nat) (a d : α),
    i < l.length → (l.set i a).getD i d = a := by
  intro l
  induction l with
  | nil => intro i a d h; simp at h
  | cons x xs ih =>
    intro i a d h
    cases i with
    | zero => rfl
    | succ n =>
      simp only [List.set_cons_succ, List.getD_cons_succ]
      exact ih n a d (by simpa using h)

theorem getD_set_ne {α : Type} : ∀ (l : List α) (i j : Nat) (a d : α),
    j ≠ i → (l.set i a).getD j d = l.getD j d := by
  intro l
  induction l with
  | nil => intro i j a d _; simp [List.set]
  | cons x xs ih =>
    intro i j a d h
    cases i with
    | zero =>
      cases j with
      | zero => exact absurd rfl h
      | succ m => rfl
    | succ n =>
      cases j with
      | zero => rfl
      | succ m =>
        simp only [List.set_cons_succ, List.getD_cons_succ]
        exact ih n m a d (by omega)

theorem set_getD_self {α : Type} : ∀ (l : List α) (i : Nat) (d : α),
    l.set i (l.getD i d) = l := by
  intro l
  induction l with
  | nil => intro i d; rfl
  | cons x xs ih =>
    intro i d
    cases i with
    | zero => rfl
    | succ n =>
      simp only [List.getD_cons_succ, List.set_cons_succ]
      rw [ih n d]

namespace HashTable

theorem getBucket_setBucket_self : ∀ (b : List (String × Int)) (k : String) (v : Int),
    getBucket (setBucket b k v) k = v := by
  intro b
  induction b with
  | nil => intro k v; simp [setBucket, getBucket]
  | cons p rest ih =>
    intro k v
    obtain ⟨k', v'⟩ := p
    by_cases h : k' = k
    · simp [setBucket, getBucket, h]
    · simp [setBucket, getBucket, h, ih]

theorem keys_setBucket : ∀ (b : List (String × Int)) (k : String) (v : Int),
    (setBucket b k v).map Prod.fst =
      if k ∈ b.map Prod.fst then b.map Prod.fst else b.map Prod.fst ++ [k] := by
  intro b
  induction b with
  | nil => intro k v; simp [setBucket]
  | cons p rest ih =>
    intro k v
    obtain ⟨k', v'⟩ := p
    by_cases h : k' = k
    · simp [setBucket, h]
    · have h' : ¬ k = k' := fun e => h e.symm
      by_cases hm : k ∈ rest.map Prod.fst
      · simp [setBucket, h, ih, hm, h']
      · simp [setBucket, h, ih, hm, h']

theorem mem_keys_setBucket (b : List (String × Int)) (k : String) (v : Int) :
    k ∈ (setBucket b k v).map Prod.fst := by
  rw [keys_setBucket]
  by_cases hm : k ∈ b.map Prod.fst
  · rwa [if_pos hm]
  · rw [if_neg hm]
    simp

theorem keys_setBucket_of_mem {b : List (String × Int)} {k : String}
    (h : k ∈ b.map Prod.fst) (v : Int) :
    (setBucket b k v).map Prod.fst = b.map Prod.fst := by
  rw [keys_setBucket, if_pos h]

theorem getBucket_eq_sentinel_of_not_mem : ∀ {b : List (String × Int)} {k : String},
    k ∉ b.map Prod.fst → getBucket b k = -1 := by
  intro b
  induction b with
  | nil => intro k _; rfl
  | cons p rest ih =>
    intro k hk
    obtain ⟨k', v'⟩ := p
    simp only [List.map_cons, List.mem_cons, not_or] at hk
    simp only [getBucket, if_neg (fun e : k' = k => hk.1 e.symm)]
    exact ih hk.2

theorem getBucket_delBucket_self : ∀ {b : List (String × Int)},
    (b.map Prod.fst).Nodup → ∀ (k : String), getBucket (delBucket b k) k = -1 := by
  intro b
  induction b with
  | nil => intro _ k; rfl
  | cons p rest ih =>
    intro hnd k
    obtain ⟨k', v'⟩ := p
    simp only [List.map_cons, List.nodup_cons] at hnd
    by_cases h : k' = k
    · subst h
      simp only [delBucket, if_pos rfl]
      exact getBucket_eq_sentinel_of_not_mem hnd.1
    · simp only [delBucket, if_neg h, getBucket, if_neg h]
      exact ih hnd.2 k

theorem getBucket_delBucket_ne : ∀ (b : List (String × Int)) {k k' : String},
    k' ≠ k → getBucket (delBucket b k) k' = getBucket b k' := by
  intro b
  induction b with
  | nil => intro k k' _; rfl
  | cons p rest ih =>
    intro k k' hne
    obtain ⟨k0, v0⟩ := p
    by_cases h : k0 = k
    · subst h
      have hd : delBucket ((k0, v0) :: rest) k0 = rest := by
        simp [delBucket]
      rw [hd]
      simp only [getBucket, if_neg (fun e : k0 = k' => hne e.symm)]
    · simp only [delBucket, if_neg h, getBucket]
      by_cases h2 : k0 = k'
      · simp [h2]
      · simp [h2, ih hne]

theorem delBucket_eq_self_of_not_mem : ∀ {b : List (String × Int)} {k : String},
    k ∉ b.map Prod.fst → delBucket b k = b := by
  intro b
  induction b with
  | nil => intro k _; rfl
  | cons p rest ih =>
    intro k hk
    obtain ⟨k', v'⟩ := p
    simp only [List.map_cons, List.mem_cons, not_or] at hk
    simp only [delBucket, if_neg (fun e : k' = k => hk.1 e.symm)]
    rw [ih hk.2]

theorem delBucket_sublist : ∀ (b : List (String × Int)) (k : String),
    List.Sublist (delBucket b k) b := by
  intro b
  induction b with
  | nil => intro k; exact List.Sublist.refl []
  | cons p rest ih =>
    intro k
    obtain ⟨k', v'⟩ := p
    by_cases h : k' = k
    · simp only [delBucket, if_pos h]
      exact List.sublist_cons_self _ _
    · simp only [delBucket, if_neg h]
      exact List.Sublist.cons₂ _ (ih k)

theorem filter_key_length_eq_zero {b : List (String × Int)} {k : String}
    (h : k ∉ b.map Prod.fst) : (b.filter fun p => p.1 == k).length = 0 := by
  rw [List.length_eq_zero, List.filter_eq_nil_iff]
  intro p hp
  simp only [beq_iff_eq]
  intro he
  exact h (he ▸ List.mem_map_of_mem Prod.fst hp)

theorem filter_key_length_le_one : ∀ {b : List (String × Int)},
    (b.map Prod.fst).Nodup → ∀ (k : String),
    (b.filter fun p => p.1 == k).length ≤ 1 := by
  intro b
  induction b with
  | nil => intro _ k; simp
  | cons p rest ih =>
    intro h k
    obtain ⟨k', v'⟩ := p
    simp only [List.map_cons, List.nodup_cons] at h
    by_cases he : k' = k
    · subst he
      rw [List.filter_cons_of_pos (by simp)]
      simp only [List.length_cons, Nat.succ_le_succ_iff, Nat.le_zero]
      exact filter_key_length_eq_zero h.1
    · rw [List.filter_cons_of_neg (by simp [he])]
      exact ih h.2 k

end HashTable

theorem getD_replicate_self {α : Type} : ∀ (n i : Nat) (d : α),
    (List.replicate n d).getD i d = d := by
  intro n
  induction n with
  | zero => intro i d; rfl
  | succ m ih =>
    intro i d
    cases i with
    | zero => rfl
    | succ j =>
      simp only [List.replicate_succ, List.getD_cons_succ]
      exact ih j d

theorem getD_map {α β : Type} (f : α → β) (d' : β) : ∀ (l : List α) (j : Nat) (d : α),
    j < l.length → (l.map f).getD j d' = f (l.getD j d) := by
  intro l
  induction l with
  | nil => intro j d h; simp at h
  | cons x xs ih =>
    intro j d h
    cases j with
    | zero => rfl
    | succ m =>
      simp only [List.map_cons, List.getD_cons_succ]
      exact ih m d (by simpa using h)

theorem sum_le_one_of_single : ∀ (l : List Nat) (i : Nat),
    (∀ j, j < l.length → j ≠ i → l.getD j 0 = 0) →
    l.getD i 0 ≤ 1 → l.sum ≤ 1 := by
  intro l
  induction l with
  | nil => intro i _ _; simp
  | cons a rest ih =>
    intro i hzero hone
    cases i with
    | zero =>
      have hrest : rest.sum = 0 := by
        apply List.sum_eq_zero
        intro x hx
        obtain ⟨j, hj, rfl⟩ := List.mem_iff_getElem.mp hx
        have hz := hzero (j + 1) (by simpa using hj) (by simp)
        rwa [List.getD_cons_succ, List.getD_eq_getElem rest 0 hj] at hz
      have ha : a ≤ 1 := by simpa using hone
      simp only [List.sum_cons, hrest]
      omega
    | succ n =>
      have ha : a = 0 := by
        have hz := hzero 0 (by simp) (by simp)
        simpa using hz
      have hrest : rest.sum ≤ 1 := by
        refine ih n ?_ (by simpa using hone)
        intro j hj hne
        have hz := hzero (j + 1) (by simpa using hj) (by simpa using hne)
        simpa using hz
      simp only [List.sum_cons, ha]
      simpa using hrest

namespace HashTable

theorem get_hash_lt {t : HashTable} (h : Valid t) (k : String) :
    t.get_hash k < t.data.length := by
  obtain ⟨hlen, hpos⟩ := h
  rw [hlen]
  exact Nat.mod_lt _ hpos

theorem valid_setItem {t : HashTable} (h : Valid t) (k : String) (v : Int) :
    Valid (t.__setitem__ k v) :=
  ⟨by simp [__setitem__, h.1], h.2⟩

theorem valid_delItem {t : HashTable} (h : Valid t) (k : String) :
    Valid (t.__delitem__ k) :=
  ⟨by simp [__delitem__, h.1], h.2⟩

theorem getItem_setItem_self {t : HashTable} (h : Valid t) (k : String) (v : Int) :
    (t.__setitem__ k v).__getitem__ k = v := by
  show getBucket
    ((t.data.set (t.get_hash k) (setBucket (t.data.getD (t.get_hash k) []) k v)).getD
      (t.get_hash k) []) k = v
  rw [getD_set_self _ _ _ _ (get_hash_lt h k)]
  exact getBucket_setBucket_self _ _ _

theorem getItem_delItem_self {t : HashTable} (h : Wf t) (k : String) :
    (t.__delitem__ k).__getitem__ k = -1 := by
  obtain ⟨hv, hbuckets⟩ := h
  show getBucket
    ((t.data.set (t.get_hash k) (delBucket (t.data.getD (t.get_hash k) []) k)).getD
      (t.get_hash k) []) k = -1
  rw [getD_set_self _ _ _ _ (get_hash_lt hv k)]
  exact getBucket_delBucket_self (hbuckets _ (get_hash_lt hv k)).1 k

theorem getItem_delItem_ne {t : HashTable} (h : Valid t) {k k' : String}
    (hne : k' ≠ k) :
    (t.__delitem__ k).__getitem__ k' = t.__getitem__ k' := by
  by_cases hik : t.get_hash k' = t.get_hash k
  · show getBucket
      ((t.data.set (t.get_hash k) (delBucket (t.data.getD (t.get_hash k) []) k)).getD
        (t.get_hash k') []) k'
      = getBucket (t.data.getD (t.get_hash k') []) k'
    rw [hik, getD_set_self _ _ _ _ (get_hash_lt h k)]
    exact getBucket_delBucket_ne _ hne
  · show getBucket
      ((t.data.set (t.get_hash k) (delBucket (t.data.getD (t.get_hash k) []) k)).getD
        (t.get_hash k') []) k'
      = getBucket (t.data.getD (t.get_hash k') []) k'
    rw [getD_set_ne _ _ _ _ _ hik]

theorem delItem_eq_self_of_not_mem {t : HashTable} {k : String}
    (hk : k ∉ tableKeys t) :
    t.__delitem__ k = t := by
  have hkb : k ∉ (t.data.getD (t.get_hash k) []).map Prod.fst := by
    by_cases hlt : t.get_hash k < t.data.length
    · intro hmem
      apply hk
      unfold tableKeys
      rw [List.mem_flatten]
      refine ⟨(t.data.getD (t.get_hash k) []).map Prod.fst, ?_, hmem⟩
      rw [List.getD_eq_getElem t.data [] hlt]
      exact List.mem_map_of_mem _ (List.getElem_mem hlt)
    · rw [List.getD_eq_default t.data [] (not_lt.mp hlt)]
      simp
  show (⟨t.size,
      t.data.set (t.get_hash k) (delBucket (t.data.getD (t.get_hash k) []) k)⟩
    : HashTable) = t
  rw [delBucket_eq_self_of_not_mem hkb, set_getD_self]

theorem wf_mk_table {n : Nat} (hn : 0 < n) : Wf (mk_table n) := by
  refine ⟨⟨by simp [mk_table], by simpa [mk_table] using hn⟩, ?_⟩
  intro i _
  have hb : (mk_table n).data.getD i [] = [] := getD_replicate_self n i []
  rw [hb]
  simp

theorem wf_setItem {t : HashTable} (h : Wf t) (k : String) (v : Int) :
    Wf (t.__setitem__ k v) := by
  obtain ⟨hv, hbuckets⟩ := h
  refine ⟨valid_setItem hv k v, ?_⟩
  intro i hi
  have hlen : (t.__setitem__ k v).data.length = t.data.length := by
    simp [__setitem__]
  rw [hlen] at hi
  have hold := fun (j : Nat) (hj : j < t.data.length) => hbuckets j hj
  by_cases hik : i = t.get_hash k
  · subst hik
    have hbD : (t.__setitem__ k v).data.getD (t.get_hash k) []
        = setBucket (t.data.getD (t.get_hash k) []) k v :=
      getD_set_self _ _ _ _ (get_hash_lt hv k)
    have hb := hold _ (get_hash_lt hv k)
    rw [hbD]
    constructor
    · rw [keys_setBucket]
      by_cases hm : k ∈ (t.data.getD (t.get_hash k) []).map Prod.fst
      · rw [if_pos hm]
        exact hb.1
      · rw [if_neg hm]
        rw [List.nodup_append]
        exact ⟨hb.1, List.nodup_singleton k, by simpa using hm⟩
    · intro x hx
      rw [keys_setBucket] at hx
      show t.get_hash x = t.get_hash k
      by_cases hm : k ∈ (t.data.getD (t.get_hash k) []).map Prod.fst
      · rw [if_pos hm] at hx
        exact hb.2 x hx
      · rw [if_neg hm] at hx
        rcases List.mem_append.mp hx with hx | hx
        · exact hb.2 x hx
        · have hxk : x = k := by simpa using hx
          rw [hxk]
  · have hbD : (t.__setitem__ k v).data.getD i [] = t.data.getD i [] :=
      getD_set_ne _ _ _ _ _ hik
    rw [hbD]
    have hb := hold i hi
    exact ⟨hb.1, fun x hx => hb.2 x hx⟩

theorem wf_delItem {t : HashTable} (h : Wf t) (k : String) :
    Wf (t.__delitem__ k) := by
  obtain ⟨hv, hbuckets⟩ := h
  refine ⟨valid_delItem hv k, ?_⟩
  intro i hi
  have hlen : (t.__delitem__ k).data.length = t.data.length := by
    simp [__delitem__]
  rw [hlen] at hi
  by_cases hik : i = t.get_hash k
  · subst hik
    have hbD : (t.__delitem__ k).data.getD (t.get_hash k) []
        = delBucket (t.data.getD (t.get_hash k) []) k :=
      getD_set_self _ _ _ _ (get_hash_lt hv k)
    rw [hbD]
    have hb := hbuckets _ (get_hash_lt hv k)
    have hsub := (delBucket_sublist (t.data.getD (t.get_hash k) []) k).map Prod.fst
    exact ⟨hb.1.sublist hsub, fun x hx => hb.2 x (hsub.subset hx)⟩
  · have hbD : (t.__delitem__ k).data.getD i [] = t.data.getD i [] :=
      getD_set_ne _ _ _ _ _ hik
    rw [hbD]
    have hb := hbuckets i hi
    exact ⟨hb.1, fun x hx => hb.2 x hx⟩

theorem keyCount_le_one {t : HashTable} (h : Wf t) (k : String) :
    keyCount t k ≤ 1 := by
  obtain ⟨hv, hbuckets⟩ := h
  unfold keyCount
  apply sum_le_one_of_single _ (t.get_hash k)
  · intro j hj hne
    rw [List.length_map] at hj
    rw [getD_map _ 0 t.data j [] hj]
    have hb := hbuckets j hj
    apply filter_key_length_eq_zero
    intro hmem
    exact hne (hb.2 k hmem).symm
  · have hlt : t.get_hash k < t.data.length := get_hash_lt hv k
    rw [getD_map _ 0 t.data _ [] hlt]
    exact filter_key_length_le_one (hbuckets _ hlt).1 k

theorem bucketKeys_set (t : HashTable) (i : Nat) (b : List (String × Int)) :
    bucketKeys ⟨t.size, t.data.set i b⟩ = (bucketKeys t).set i (b.map Prod.fst) :=
  List.map_set ..

theorem keys_getD_bucketKeys {t : HashTable} {i : Nat} (h : i < t.data.length) :
    (t.data.getD i []).map Prod.fst = (bucketKeys t).getD i [] :=
  (getD_map _ [] t.data i [] h).symm

theorem bucketKeys_setItem_of_mem {t : HashTable} (h : Valid t) {k : String}
    (hm : k ∈ (t.data.getD (t.get_hash k) []).map Prod.fst) (v : Int) :
    bucketKeys (t.__setitem__ k v) = bucketKeys t := by
  have h1 : bucketKeys (t.__setitem__ k v)
      = (bucketKeys t).set (t.get_hash k)
          ((setBucket (t.data.getD (t.get_hash k) []) k v).map Prod.fst) :=
    bucketKeys_set t _ _
  rw [h1, keys_setBucket_of_mem hm v,
    keys_getD_bucketKeys (get_hash_lt h k), set_getD_self]

theorem pairCount_eq_sum_keys (t : HashTable) :
    pairCount t = ((bucketKeys t).map List.length).sum := by
  unfold pairCount bucketKeys
  rw [List.map_map]
  congr 1
  refine List.map_congr_left ?_
  intro b _
  simp [Function.comp]

end HashTable

theorem wf_applyOp {t : HashTable} (h : Wf t) (op : Op) :
    Wf (applyOp t op) := by
  cases op with
  | set k v => exact HashTable.wf_setItem h k v
  | del k => exact HashTable.wf_delItem h k

theorem wf_run : ∀ (ops : List Op) (t : HashTable), Wf t →
    Wf (run t ops) := by
  intro ops
  induction ops with
  | nil => intro t h; exact h
  | cons op rest ih => intro t h; exact ih _ (wf_applyOp h op)

namespace Tree

theorem add_child_eq_self_of_mem : ∀ {t : Tree}, IsBST t → ∀ {x : Int},
    x ∈ t.in_order_traversal → t.add_child x = t := by
  intro t
  induction t with
  | leaf => intro _ x hx; simp [in_order_traversal] at hx
  | node l v r ihl ihr =>
    intro h x hx
    obtain ⟨hl, hr, hbl, hbr⟩ := h
    by_cases h1 : v = x
    · simp [add_child, h1]
    · simp only [in_order_traversal, List.mem_append, List.mem_cons] at hx
      rcases hx with hx | hx | hx
      · have hxv : x < v := hl x hx
        simp only [add_child, if_neg h1, if_pos hxv]
        rw [ihl hbl hx]
      · exact absurd hx.symm h1
      · have hxv : v < x := hr x hx
        simp only [add_child, if_neg h1, if_neg (by omega : ¬ x < v)]
        rw [ihr hbr hx]

end Tree

/-- C1: for every finite sequence of values inserted via `add_child` into
a BST starting from a single root node, the list returned by
`in_order_traversal` is sorted in non-decreasing order. -/
theorem c1_inorder_sorted_after_inserts (v0 : Int) (vs : List Int) :
    ((buildBST v0 vs).in_order_traversal).Sorted (· ≤ ·) :=
  List.Pairwise.imp le_of_lt (Tree.sorted_inorder_of_isBST (isBST_buildBST v0 vs))

/-- C2: for every key `k` and value `v`, `set(k, v)` followed by `get(k)`
returns `v`, whatever the structurally valid table held before. -/
theorem c2_set_then_get (t : HashTable) (h : Valid t) (k : String) (v : Int) :
    (t.__setitem__ k v).__getitem__ k = v :=
  HashTable.getItem_setItem_self h k v

theorem c2_witness :
    Valid (⟨3, [[("key", 9)], [], []]⟩ : HashTable)
  ∧ ((⟨3, [[("key", 9)], [], []]⟩ : HashTable).__setitem__ "name" 7).__getitem__
      "name" = 7 :=
  ⟨by decide, c2_set_then_get _ (by decide) "name" 7⟩

/-- C3: for every BST built by a sequence of inserts, removing every
inserted value one at a time in any order yields the empty tree, and
after any sequence of removals the in-order traversal is sorted and a
just-removed value is absent from it. -/
theorem c3_remove_all_and_each_step (v0 : Int) (vs rs us : List Int)
    (hperm : List.Perm us (v0 :: vs)) :
    us.foldl Tree.remove (buildBST v0 vs) = Tree.leaf
  ∧ ((rs.foldl Tree.remove (buildBST v0 vs)).in_order_traversal.Sorted (· ≤ ·))
  ∧ ∀ v : Int,
      v ∉ ((rs.foldl Tree.remove (buildBST v0 vs)).remove v).in_order_traversal := by
  have hbst := isBST_buildBST v0 vs
  refine ⟨?_, ?_, ?_⟩
  · refine Tree.foldl_remove_eq_leaf us _ hbst ?_
    intro y hy
    rcases Tree.mem_inorder_foldl_add_child vs _ y hy with h | h
    · have hy0 : y = v0 := by simpa [Tree.in_order_traversal] using h
      exact hperm.mem_iff.mpr (by rw [hy0]; exact List.mem_cons_self v0 vs)
    · exact hperm.mem_iff.mpr (List.mem_cons_of_mem v0 h)
  · exact List.Pairwise.imp le_of_lt
      (Tree.sorted_inorder_of_isBST (Tree.isBST_foldl_remove rs _ hbst))
  · intro v
    exact Tree.not_mem_inorder_remove (Tree.isBST_foldl_remove rs _ hbst) v

theorem c3_witness :
    List.Perm [3, 1, 2] ((2 : Int) :: [1, 3])
  ∧ ([3, 1, 2].foldl Tree.remove (buildBST 2 [1, 3]) = Tree.leaf
    ∧ (([5].foldl Tree.remove (buildBST 2 [1, 3])).in_order_traversal.Sorted (· ≤ ·))
    ∧ ∀ v : Int,
        v ∉ (([5].foldl Tree.remove (buildBST 2 [1, 3])).remove v).in_order_traversal) :=
  ⟨by decide, c3_remove_all_and_each_step 2 [1, 3] [5] [3, 1, 2] (by decide)⟩

/-- C4: inserting a value already present in a BST built by inserts is a
silent no-op: `calculate_sum` and the node count (length of the in-order
traversal) are unchanged. -/
theorem c4_duplicate_insert_noop (v0 : Int) (vs : List Int) (v : Int)
    (hv : v ∈ (buildBST v0 vs).in_order_traversal) :
    ((buildBST v0 vs).add_child v).calculate_sum = (buildBST v0 vs).calculate_sum
  ∧ ((buildBST v0 vs).add_child v).in_order_traversal.length
      = (buildBST v0 vs).in_order_traversal.length := by
  have heq : (buildBST v0 vs).add_child v = buildBST v0 vs :=
    Tree.add_child_eq_self_of_mem (isBST_buildBST v0 vs) hv
  rw [heq]
  exact ⟨rfl, rfl⟩

theorem c4_witness :
    (3 : Int) ∈ (buildBST 5 [3, 8]).in_order_traversal
  ∧ (((buildBST 5 [3, 8]).add_child 3).calculate_sum
        = (buildBST 5 [3, 8]).calculate_sum
    ∧ ((buildBST 5 [3, 8]).add_child 3).in_order_traversal.length
        = (buildBST 5 [3, 8]).in_order_traversal.length) :=
  ⟨by decide, c4_duplicate_insert_noop 5 [3, 8] 3 (by decide)⟩

/-- C5: along every sequence of set and delete operations on a fresh
table, at most one pair with a given key exists across all buckets. -/
theorem c5_at_most_one_pair_per_key (n : Nat) (hn : 0 < n) (ops : List Op)
    (k : String) :
    keyCount (run (HashTable.mk_table n) ops) k ≤ 1 :=
  HashTable.keyCount_le_one (wf_run ops _ (HashTable.wf_mk_table hn)) k

theorem c5_witness :
    0 < 2
  ∧ keyCount (run (HashTable.mk_table 2) [Op.set "ab" 1, Op.set "ab" 2, Op.del "cd"]) "ab" ≤ 1 :=
  ⟨by decide,
   c5_at_most_one_pair_per_key 2 (by decide) [Op.set "ab" 1, Op.set "ab" 2, Op.del "cd"] "ab"⟩

/-- C6: `set(k, v1)` then `set(k, v2)` then `get(k)` returns `v2`; the
second set leaves the total pair count unchanged and the key sequence of
every bucket unchanged, so the pair for `k` keeps its position. -/
theorem c6_overwrite_in_place (t : HashTable) (h : Valid t) (k : String)
    (v1 v2 : Int) :
    ((t.__setitem__ k v1).__setitem__ k v2).__getitem__ k = v2
  ∧ pairCount ((t.__setitem__ k v1).__setitem__ k v2)
      = pairCount (t.__setitem__ k v1)
  ∧ bucketKeys ((t.__setitem__ k v1).__setitem__ k v2)
      = bucketKeys (t.__setitem__ k v1) := by
  have h1 : Valid (t.__setitem__ k v1) := HashTable.valid_setItem h k v1
  have hmem : k ∈ ((t.__setitem__ k v1).data.getD
      ((t.__setitem__ k v1).get_hash k) []).map Prod.fst := by
    have hb : (t.__setitem__ k v1).data.getD ((t.__setitem__ k v1).get_hash k) []
        = HashTable.setBucket (t.data.getD (t.get_hash k) []) k v1 :=
      getD_set_self _ _ _ _ (HashTable.get_hash_lt h k)
    rw [hb]
    exact HashTable.mem_keys_setBucket _ k v1
  have hkeys := HashTable.bucketKeys_setItem_of_mem h1 hmem v2
  refine ⟨HashTable.getItem_setItem_self h1 k v2, ?_, hkeys⟩
  rw [HashTable.pairCount_eq_sum_keys, HashTable.pairCount_eq_sum_keys, hkeys]

theorem c6_witness :
    Valid (HashTable.mk_table 3)
  ∧ ((((HashTable.mk_table 3).__setitem__ "name" 1).__setitem__ "name" 2).__getitem__ "name" = 2
    ∧ pairCount (((HashTable.mk_table 3).__setitem__ "name" 1).__setitem__ "name" 2)
        = pairCount ((HashTable.mk_table 3).__setitem__ "name" 1)
    ∧ bucketKeys (((HashTable.mk_table 3).__setitem__ "name" 1).__setitem__ "name" 2)
        = bucketKeys ((HashTable.mk_table 3).__setitem__ "name" 1)) :=
  ⟨by decide, c6_overwrite_in_place (HashTable.mk_table 3) (by decide) "name" 1 2⟩

/-- C7: removing the value of a node with two children replaces that
node's value by the minimum of its right subtree and recursively removes
that minimum from the right subtree. -/
theorem c7_two_child_successor_replacement (l r : Tree) (v : Int)
    (hl : l ≠ Tree.leaf) (hr : r ≠ Tree.leaf) :
    (Tree.node l v r).remove v
      = Tree.node l r.find_min (r.remove r.find_min) :=
  Tree.remove_self_two_children hl hr

theorem c7_witness :
    (Tree.node Tree.leaf 1 Tree.leaf ≠ Tree.leaf)
  ∧ (Tree.node (Tree.node Tree.leaf 4 Tree.leaf) 5 Tree.leaf ≠ Tree.leaf)
  ∧ ((Tree.node (Tree.node Tree.leaf 1 Tree.leaf) 2
        (Tree.node (Tree.node Tree.leaf 4 Tree.leaf) 5 Tree.leaf)).remove 2
      = Tree.node (Tree.node Tree.leaf 1 Tree.leaf)
          ((Tree.node (Tree.node Tree.leaf 4 Tree.leaf) 5 Tree.leaf).find_min)
          ((Tree.node (Tree.node Tree.leaf 4 Tree.leaf) 5 Tree.leaf).remove
            ((Tree.node (Tree.node Tree.leaf 4 Tree.leaf) 5 Tree.leaf).find_min))) :=
  ⟨by decide, by decide,
   c7_two_child_successor_replacement _ _ 2 (by decide) (by decide)⟩

/-- C8: for a value not present in the tree, `search` returns false and
`remove` leaves the in-order traversal unchanged; neither operation can
fail, both are total functions. -/
theorem c8_missing_value_noop (t : Tree) (v : Int)
    (hv : v ∉ t.in_order_traversal) :
    t.search v = false
  ∧ (t.remove v).in_order_traversal = t.in_order_traversal := by
  refine ⟨Tree.search_eq_false_of_not_mem t v hv, ?_⟩
  rw [Tree.remove_eq_self_of_not_mem t v hv]

theorem c8_witness :
    (7 : Int) ∉ (buildBST 5 [3, 8]).in_order_traversal
  ∧ ((buildBST 5 [3, 8]).search 7 = false
    ∧ ((buildBST 5 [3, 8]).remove 7).in_order_traversal
        = (buildBST 5 [3, 8]).in_order_traversal) :=
  ⟨by decide, c8_missing_value_noop _ 7 (by decide)⟩

/-- C9: after `delete(k)` on a reachable table, `get(k)` returns the
not-found sentinel `-1`, every other key's binding is unaffected, and
deleting an absent key is a silent no-op. -/
theorem c9_delete_semantics (t : HashTable) (h : Wf t) (k k' : String)
    (hne : k' ≠ k) :
    (t.__delitem__ k).__getitem__ k = -1
  ∧ (t.__delitem__ k).__getitem__ k' = t.__getitem__ k'
  ∧ (k ∉ tableKeys t → t.__delitem__ k = t) :=
  ⟨HashTable.getItem_delItem_self h k,
   HashTable.getItem_delItem_ne h.1 hne,
   fun hk => HashTable.delItem_eq_self_of_not_mem hk⟩

theorem c9_witness :
    Wf (⟨2, [[("b", 5)], []]⟩ : HashTable)
  ∧ ("d" ≠ "b")
  ∧ (((⟨2, [[("b", 5)], []]⟩ : HashTable).__delitem__ "b").__getitem__ "b" = -1
    ∧ ((⟨2, [[("b", 5)], []]⟩ : HashTable).__delitem__ "b").__getitem__ "d"
        = (⟨2, [[("b", 5)], []]⟩ : HashTable).__getitem__ "d"
    ∧ ("b" ∉ tableKeys (⟨2, [[("b", 5)], []]⟩ : HashTable) →
        (⟨2, [[("b", 5)], []]⟩ : HashTable).__delitem__ "b"
          = (⟨2, [[("b", 5)], []]⟩ : HashTable))) :=
  ⟨by decide, by decide,
   c9_delete_semantics (⟨2, [[("b", 5)], []]⟩ : HashTable) (by decide) "b" "d" (by decide)⟩

/-- C10: the not-found sentinel is the integer `-1` and cannot be told
apart from a stored value: a key bound to `-1` and a key never inserted
produce the same `get` result. -/
theorem c10_sentinel_minus_one_ambiguous :
    ((HashTable.mk_table 100).__setitem__ "name" (-1)).__getitem__ "name" = -1
  ∧ ((HashTable.mk_table 100).__setitem__ "name" (-1)).__getitem__ "mean" = -1
  ∧ "name" ∈ tableKeys ((HashTable.mk_table 100).__setitem__ "name" (-1))
  ∧ "mean" ∉ tableKeys ((HashTable.mk_table 100).__setitem__ "name" (-1)) :=
  ⟨by decide, by decide, by decide, by decide⟩

end DS
